import Mathlib

/-!
Verification development for the freebsd-rustdate state-reconciliation
pipeline.  The definitions below are shallow embeddings of the Rust
source: pure functions become Lean functions, maps become association
lists, machine integers become `Nat`/`Int` (with explicit bounds where
overflow matters), and fallible code returns `Option`/`Except`.
Filesystem paths are modelled as `String` with its linear order standing
in for the total order on `PathBuf`.
-/

/-! ### Generic string helpers

Kernel-computable models of the string operations the Rust code uses
(`str::split`, `str::trim`, `str::starts_with`, ...), defined by
structural recursion on the character list so that `decide`/`rfl` can
evaluate them.
-/

/-- Split a character list at every occurrence of `sep`, keeping empty
segments, as Rust `str::split(sep)` does. -/
def splitChar (sep : Char) : List Char → List (List Char)
  | [] => [[]]
  | c :: rest =>
    match splitChar sep rest with
    | [] => if c = sep then [[], []] else [[c]]
    | h :: t => if c = sep then [] :: h :: t else (c :: h) :: t

/-- Fields of a pipe-separated metadata or tag line, as Rust
`s.split('|')` yields them. -/
def splitPipe (s : String) : List String :=
  (splitChar '|' s.data).map fun l => String.mk l

/-- Lines of a text blob for the multiline-anchored regex model: `^`/`$`
match exactly at newline boundaries, so the line list is the split on
a newline character. -/
def splitNl (s : String) : List String :=
  (splitChar '\n' s.data).map fun l => String.mk l

/-- Whitespace trim of `str::trim` (modelled on ASCII whitespace, which
covers the trailing newline the keytag payload carries). -/
def trimStr (s : String) : String :=
  String.mk (((s.data.dropWhile Char.isWhitespace).reverse.dropWhile
      Char.isWhitespace).reverse)

/-- Bool test that `pre` is a prefix of `s` (Rust `str::starts_with`). -/
def strStarts (s pre : String) : Bool :=
  pre.data.isPrefixOf s.data

/-- Bool test that `suf` is a suffix of `s` (Rust `str::ends_with`). -/
def strEnds (s suf : String) : Bool :=
  suf.data.reverse.isPrefixOf s.data.reverse

/-! ### Numeric field parsing

Models of `u32::from_str`, `u32::from_str_radix(_, 8)` and
`i64::from_str` as used on metadata and tag fields: an optional sign,
one or more digits of the base, and a range check.
-/

/-- Numeric value of a digit list in a given base (the digits are
assumed valid for the base). -/
def natOfDigits (base : Nat) (digitVal : Char → Nat) (l : List Char) : Nat :=
  l.foldl (fun acc c => acc * base + digitVal c) 0

/-- Decimal digit test, `[0-9]`. -/
def isDecDigit (c : Char) : Bool := c.isDigit

/-- Octal digit test, `[0-7]`. -/
def isOctDigit (c : Char) : Bool := '0' ≤ c && c ≤ '7'

/-- Lowercase hex digit test, `[0-9a-f]` (the `base16ct::lower` decoder
rejects uppercase). -/
def isHexLower (c : Char) : Bool := c.isDigit || ('a' ≤ c && c ≤ 'f')

/-- Value of a decimal or lowercase-hex digit. -/
def digitVal (c : Char) : Nat :=
  if c.isDigit then c.toNat - '0'.toNat else c.toNat - 'a'.toNat + 10

/-- Digit-run parse shared by the unsigned integer models: strips one
optional leading `+`, then demands a nonempty all-digit run. -/
def parseDigitRun (isD : Char → Bool) (base : Nat) (l : List Char) : Option Nat :=
  let l := match l with
    | '+' :: t => t
    | t => t
  if l.isEmpty then none
  else if l.all isD then some (natOfDigits base digitVal l)
  else none

/-- Model of `u32::from_str`: decimal digits, value below `2^32`. -/
def parse_u32 (s : String) : Option Nat :=
  match parseDigitRun isDecDigit 10 s.data with
  | some v => if v < 2 ^ 32 then some v else none
  | none => none

/-- Model of `u32::from_str_radix(s, 8)`: octal digits, value below
`2^32`. -/
def parse_octal_u32 (s : String) : Option Nat :=
  match parseDigitRun isOctDigit 8 s.data with
  | some v => if v < 2 ^ 32 then some v else none
  | none => none

/-- Model of `i64::from_str`: optional sign, decimal digits, value in
the `i64` range. -/
def parse_i64 (s : String) : Option Int :=
  match s.data with
  | '-' :: t =>
    match parseDigitRun isDecDigit 10 ('+' :: t) with
    | some v => if v ≤ 2 ^ 63 then some (-(v : Int)) else none
    | none => none
  | l =>
    match parseDigitRun isDecDigit 10 l with
    | some v => if v < 2 ^ 63 then some (v : Int) else none
    | none => none

/-- Model of `Sha256Hash::from_str`: exactly 64 lowercase hex
characters, decoded to the 256-bit value. -/
def parse_sha256 (s : String) : Option Nat :=
  if s.data.length = 64 && s.data.all isHexLower then
    some (natOfDigits 16 digitVal s.data)
  else none

/-! ### EOL warnings (src/server/server.rs, `eol_warning_be`)

Timestamps are modelled as integer Unix seconds; the EOL timestamp in a
keytag is integral, so second granularity decides both comparisons
exactly.  `TimeDelta::try_days(90)` is 90*86400 seconds, and chrono
`num_days` truncates toward zero (`Int.tdiv`).
-/

/-- Humanized time-until fragment of the softer EOL warning. -/
inductive HumanUntil
  | months (n : Int)
  | weeks (n : Int)
  | days (n : Int)
deriving DecidableEq, Repr

/-- Which EOL warning gets emitted. -/
inductive EolWarning
  | strong
  | approaching (u : HumanUntil)
deriving DecidableEq, Repr

/-- Model of `eol_warning_be`: strong warning when now is at or past
EOL, softer humanized warning when EOL is within 90 days, otherwise
nothing. -/
def eol_warning_be (now eol : Int) : Option EolWarning :=
  if now ≥ eol then some .strong
  else
    let horizon : Int := 90 * 86400
    if now + horizon ≥ eol then
      let udays := (eol - now).tdiv 86400
      let ustr : HumanUntil :=
        if udays > 31 then .months (udays.tdiv 31)
        else if udays > 7 then .weeks (udays.tdiv 7)
        else .days udays
      some (.approaching ustr)
    else none

/-! ### Conflict-marker scan (src/cmd/resolve_merges.rs)

Model of the anchored multiline regex
`(?m)^(?:(?:<{7}|>{7}|\x7c{7}) .*|========)$`: a line is matched when it
begins with seven `<`, `>` or pipe characters followed by a space, or is
exactly a run of eight `=`.
-/

/-- One line matches the conflict-marker regex of the resolve-merges
driver. -/
def marker_line (l : String) : Bool :=
  strStarts l "<<<<<<< " || strStarts l ">>>>>>> " ||
    strStarts l "||||||| " || l == "========"

/-- Whole-contents match of the driver's conflict-marker regex. -/
def cfmarker_is_match (contents : String) : Bool :=
  (splitNl contents).any marker_line

/-- What the resolve-merges driver does after the editor returns. -/
inductive ResolveAction
  | promptEditSkip
  | offerAccept
deriving DecidableEq, Repr

/-- Model of the post-edit branch of the resolve-merges loop: when the
marker regex still matches, the driver loops on an edit/skip prompt;
otherwise it offers accept/edit/skip/diff. -/
def resolve_check (contents : String) : ResolveAction :=
  if cfmarker_is_match contents then .promptEditSkip else .offerAccept

/-- Line test for the diff3 conflict markers named by the specification:
`<<<<<<<`, `|||||||`, `=======` (seven equals, as diff3 and the diffy
merge engine emit), `>>>>>>>`. -/
def spec_marker_line (l : String) : Bool :=
  ["<<<<<<<", "|||||||", "=======", ">>>>>>>"].any fun m => strStarts l m

/-- A file still contains a diff3 conflict marker in the
specification's sense. -/
def spec_has_marker (contents : String) : Bool :=
  (splitNl contents).any spec_marker_line

/-! ### Metadata records (src/metadata/structs.rs)

Hashes are 256-bit values modelled as `Nat`; uid/gid/mode/flags are the
`u32` renames of src/metadata.rs modelled as `Nat`.  The Rust `PartialEq`
derivations are custom (uid/gid compared through `cmp_ugid`, symlink
uid/gid ignored entirely), so record equality is modelled by explicit
Boolean comparators parametrized by the `UGID_COMPARE` process flag.
-/

/-- A metadata line about a file (`f` line with no hardlink target). -/
structure MetaFile where
  path : String
  sha256 : Nat
  uid : Nat
  gid : Nat
  mode : Nat
  flags : Nat
deriving DecidableEq, Repr

/-- A metadata line about a hardlink (`f` line with a target). -/
structure MetaHardLink where
  path : String
  target : String
deriving DecidableEq, Repr

/-- A metadata line about a directory (`d` line). -/
structure MetaDir where
  path : String
  uid : Nat
  gid : Nat
  mode : Nat
  flags : Nat
deriving DecidableEq, Repr

/-- A metadata line about a symlink (`L` line). -/
structure MetaSymLink where
  path : String
  target : String
  uid : Nat
  gid : Nat
  mode : Nat
  flags : Nat
deriving DecidableEq, Repr

/-- Model of `cmp_ugid`: compares ids only when the `UGID_COMPARE`
global (here the `ugid` parameter) is set. -/
def cmp_ugid (ugid : Bool) (a b : Nat) : Bool :=
  if ugid then a == b else true

/-- Rust `PartialEq` on `MetaFile` (uid/gid through `cmp_ugid`). -/
def metaFileEq (ugid : Bool) (a b : MetaFile) : Bool :=
  a.path == b.path && a.sha256 == b.sha256 &&
    cmp_ugid ugid a.uid b.uid && cmp_ugid ugid a.gid b.gid &&
    a.mode == b.mode && a.flags == b.flags

/-- Rust `PartialEq` on `MetaDir` (uid/gid through `cmp_ugid`). -/
def metaDirEq (ugid : Bool) (a b : MetaDir) : Bool :=
  a.path == b.path &&
    cmp_ugid ugid a.uid b.uid && cmp_ugid ugid a.gid b.gid &&
    a.mode == b.mode && a.flags == b.flags

/-- Rust `PartialEq` on `MetaSymLink` (uid/gid always ignored). -/
def metaSymLinkEq (a b : MetaSymLink) : Bool :=
  a.path == b.path && a.target == b.target &&
    a.mode == b.mode && a.flags == b.flags

/-- Rust `PartialEq` on `MetaHardLink` (plain derive). -/
def metaHardLinkEq (a b : MetaHardLink) : Bool :=
  a.path == b.path && a.target == b.target

/-- A complete set of metadata.  The Rust `HashMap<PathBuf, _>` fields
are modelled as association lists keyed by path; well-formed sets
(`Metadata.WF`) have no duplicate keys, matching map semantics. -/
structure Metadata where
  dirs : List (String × MetaDir)
  symlinks : List (String × MetaSymLink)
  files : List (String × MetaFile)
  hardlinks : List (String × MetaHardLink)
  dashes : List String
deriving DecidableEq, Repr

/-- Key sets of the Rust `HashMap`s are duplicate-free. -/
def Metadata.WF (m : Metadata) : Prop :=
  (m.dirs.map Prod.fst).Nodup ∧ (m.symlinks.map Prod.fst).Nodup ∧
    (m.files.map Prod.fst).Nodup ∧ (m.hardlinks.map Prod.fst).Nodup ∧
    m.dashes.Nodup

instance (m : Metadata) : Decidable m.WF := by
  unfold Metadata.WF; infer_instance

/-- Model of `allpaths_hashset_inner`: all pathnames the set deals
with, optionally including the dash lines; `dedup` models collecting
into a `HashSet`. -/
def Metadata.allpaths_inner (m : Metadata) (dashes : Bool) : List String :=
  (m.dirs.map Prod.fst ++ m.files.map Prod.fst ++ m.symlinks.map Prod.fst ++
    m.hardlinks.map Prod.fst ++ if dashes then m.dashes else []).dedup

/-- Model of `allpaths_hashset` (and `allpaths`, which just collects
it). -/
def Metadata.allpaths (m : Metadata) : List String :=
  m.allpaths_inner true

/-- Model of `allpaths_hashset_nodash`. -/
def Metadata.allpaths_nodash (m : Metadata) : List String :=
  m.allpaths_inner false

/-- Option-side match test used by the `retain` closures: `other`'s map
holds an equal record under the same key. -/
def matchesOpt (eq : α → α → Bool) (v : α) : Option α → Bool
  | some w => eq v w
  | none => false

/-- Model of `remove_matching_inner`: drop every entry that compares
equal to `other`'s entry at the same path.  The hardlink pass runs after
the file pass and, when `spechl` is set, keeps any hardlink whose target
file is still present in the already-filtered file map. -/
def Metadata.remove_matching_inner (m other : Metadata) (ugid : Bool)
    (spechl : Bool) : Metadata :=
  let files := m.files.filter fun kv =>
    ! matchesOpt (metaFileEq ugid) kv.2 (other.files.lookup kv.1)
  let dirs := m.dirs.filter fun kv =>
    ! matchesOpt (metaDirEq ugid) kv.2 (other.dirs.lookup kv.1)
  let symlinks := m.symlinks.filter fun kv =>
    ! matchesOpt metaSymLinkEq kv.2 (other.symlinks.lookup kv.1)
  let hardlinks := m.hardlinks.filter fun kv =>
    (spechl && (files.lookup kv.2.target).isSome) ||
      ! matchesOpt metaHardLinkEq kv.2 (other.hardlinks.lookup kv.1)
  let dashes := m.dashes.filter fun p => ! other.dashes.contains p
  ⟨dirs, symlinks, files, hardlinks, dashes⟩

/-- Model of `remove_matching` (the `spechl = true` entry point). -/
def Metadata.remove_matching (m other : Metadata) (ugid : Bool) : Metadata :=
  m.remove_matching_inner other ugid true

/-- The records of `a` and `b` at path `p` agree: every record `a`
holds at `p` is matched by a record of the same kind in `b` that
compares Rust-equal. -/
def Metadata.sameAt (ugid : Bool) (a b : Metadata) (p : String) : Prop :=
  (∀ v, a.files.lookup p = some v →
    matchesOpt (metaFileEq ugid) v (b.files.lookup p) = true) ∧
  (∀ v, a.dirs.lookup p = some v →
    matchesOpt (metaDirEq ugid) v (b.dirs.lookup p) = true) ∧
  (∀ v, a.symlinks.lookup p = some v →
    matchesOpt metaSymLinkEq v (b.symlinks.lookup p) = true) ∧
  (∀ v, a.hardlinks.lookup p = some v →
    matchesOpt metaHardLinkEq v (b.hardlinks.lookup p) = true) ∧
  (p ∈ a.dashes → p ∈ b.dashes)

instance (ugid : Bool) (a b : Metadata) (p : String) :
    Decidable (Metadata.sameAt ugid a b p) := by
  unfold Metadata.sameAt; infer_instance

/-- Path `p` is a hardlink entry of `m` whose target file is resident
in `m`'s file map. -/
def Metadata.hardlinkTargetLive (m : Metadata) (p : String) : Prop :=
  ∃ kv ∈ m.hardlinks, kv.1 = p ∧ (m.files.lookup kv.2.target).isSome = true

instance (m : Metadata) (p : String) :
    Decidable (m.hardlinkTargetLive p) := by
  unfold Metadata.hardlinkTargetLive; infer_instance

/-! ### Components (src/components.rs, src/metadata/group.rs) -/

/-- Top-level component. -/
inductive BaseComponent
  | kernel
  | src
  | world
deriving DecidableEq, Repr

/-- Subcomponent variants. -/
inductive BaseSubComponent
  | generic
  | genericDbg
  | src
  | base
  | baseDbg
  | lib32
  | lib32Dbg
deriving DecidableEq, Repr

/-- A component entry, possibly with a subcomponent. -/
structure Component where
  comp : BaseComponent
  subcomp : Option BaseSubComponent
deriving DecidableEq, Repr

/-- Model of `Component::contains`: a bare component covers all its
subcomponents, a full one only itself. -/
def Component.contains (self other : Component) : Bool :=
  if self.comp ≠ other.comp then false
  else
    match self.subcomp with
    | none => true
    | some _ => self.subcomp == other.subcomp

/-- Model of `BaseComponent::from_str` (strum serializations). -/
def parseBaseComponent : String → Option BaseComponent
  | "kernel" => some .kernel
  | "src" => some .src
  | "world" => some .world
  | _ => none

/-- Model of `BaseSubComponent::from_str` (strum serializations). -/
def parseBaseSubComponent : String → Option BaseSubComponent
  | "generic" => some .generic
  | "generic-dbg" => some .genericDbg
  | "src" => some .src
  | "base" => some .base
  | "base-dbg" => some .baseDbg
  | "lib32" => some .lib32
  | "lib32-dbg" => some .lib32Dbg
  | _ => none

/-- A complete metadata group: components each with their metadata
(`HashMap<Component, Metadata>` as an association list). -/
structure MetadataGroup where
  md : List (Component × Metadata)
deriving DecidableEq, Repr

/-- Model of `components_check`: the components for which at least half
of the declared (non-dash) paths appear in the `existing` path set. -/
def MetadataGroup.components_check (g : MetadataGroup)
    (existing : List String) : List Component :=
  g.md.filterMap fun cm =>
    let cpaths := cm.2.allpaths_nodash
    let ntot := cpaths.length
    let nsame := (cpaths.filter fun p => existing.contains p).length
    if ntot ≤ nsame * 2 then some cm.1 else none

/-- Model of `keep_components`: retain the components some member of
`keep` contains. -/
def MetadataGroup.keep_components (g : MetadataGroup)
    (keep : List Component) : MetadataGroup :=
  ⟨g.md.filter fun cm => keep.any fun c => c.contains cm.1⟩

/-! ### Metadata line parsing (src/metadata/parse.rs) -/

/-- A parsed metadata record of any kind (`MetadataLine`). -/
inductive MetadataLine
  | file (m : MetaFile)
  | dir (m : MetaDir)
  | hardLink (m : MetaHardLink)
  | symLink (m : MetaSymLink)
  | dash (path : String)
deriving DecidableEq, Repr

/-- The record is a hardlink. -/
def MetadataLine.isHardLink : MetadataLine → Bool
  | .hardLink _ => true
  | _ => false

/-- A single parsed line: component info plus the record. -/
structure ParseLine where
  component : Component
  mdline : MetadataLine
deriving DecidableEq, Repr

/-- Rust `Path::is_absolute` on Unix: the path begins with `/`.  The
empty trailing field of a non-hardlink `f` line yields the empty path,
which is not absolute. -/
def pathIsAbsolute (s : String) : Bool :=
  strStarts s "/"

/-- Model of `ParseLine::from_str` on the already-split field list.
Fields are consumed left to right exactly as the Rust iterator does: the
four common fields first, then the per-type fields; a missing field is
an error and surplus fields are ignored. -/
def parse_fields (flds : List String) : Option ParseLine :=
  match flds with
  | c0 :: c1 :: path :: rtype :: rest =>
    (parseBaseComponent c0).bind fun comp =>
    (parseBaseSubComponent c1).bind fun subc =>
    let component : Component := ⟨comp, some subc⟩
    match rtype with
    | "f" =>
      match rest with
      | u :: g :: m :: fl :: sh :: hl :: _ =>
        (parse_u32 u).bind fun uid =>
        (parse_u32 g).bind fun gid =>
        (parse_octal_u32 m).bind fun mode =>
        (parse_octal_u32 fl).bind fun flags =>
        (parse_sha256 sh).bind fun sha256 =>
        if pathIsAbsolute hl then
          some ⟨component, .hardLink ⟨path, hl⟩⟩
        else
          some ⟨component, .file ⟨path, sha256, uid, gid, mode, flags⟩⟩
      | _ => none
    | "d" =>
      match rest with
      | u :: g :: m :: fl :: _ =>
        (parse_u32 u).bind fun uid =>
        (parse_u32 g).bind fun gid =>
        (parse_octal_u32 m).bind fun mode =>
        (parse_octal_u32 fl).bind fun flags =>
        some ⟨component, .dir ⟨path, uid, gid, mode, flags⟩⟩
      | _ => none
    | "L" =>
      match rest with
      | u :: g :: m :: fl :: target :: _ =>
        (parse_u32 u).bind fun uid =>
        (parse_u32 g).bind fun gid =>
        (parse_octal_u32 m).bind fun mode =>
        (parse_octal_u32 fl).bind fun flags =>
        some ⟨component, .symLink ⟨path, target, uid, gid, mode, flags⟩⟩
      | _ => none
    | "-" =>
      some ⟨component, .dash path⟩
    | _ => none
  | _ => none

/-- Model of `ParseLine::from_str` on the raw line. -/
def parse_line (s : String) : Option ParseLine :=
  parse_fields (splitPipe s)

/-! ### Filesystem scan (src/core/scan.rs)

A pool result entry carries the lstat data the scan pool gathered for
one path.  `scan_inner` sorts the entries ascending by path, then folds
over them classifying each one, registering the first nlink>1 entry for
every (dev, ino) pair and turning later ones into hardlinks to it.
-/

/-- File kinds the scan pool reports. -/
inductive ScanFileType
  | dir
  | file
  | symlink
deriving DecidableEq, Repr

/-- One `oks` entry from the scan pool. -/
structure ScanEnt where
  path : String
  nlink : Nat
  dev : Nat
  ino : Nat
  ftype : ScanFileType
  uid : Nat
  gid : Nat
  mode : Nat
  flags : Nat
  sha256 : Option Nat
  symlink : Option String
deriving DecidableEq, Repr

/-- FreeBSD `SF_IMMUTABLE` flag bit value (0x20000). -/
def SF_IMMUTABLE : Nat := 0x20000

/-- Path order used to sort scan results
(`oks.sort_unstable_by(|a, b| a.path.cmp(&b.path))`). -/
def scanPathLe (a b : ScanEnt) : Prop :=
  a.path ≤ b.path

instance : DecidableRel scanPathLe := fun a b =>
  decidable_of_iff (a.path.toList ≤ b.path.toList) String.le_iff_toList_le.symm

instance : IsTotal ScanEnt scanPathLe :=
  ⟨fun a b => le_total a.path b.path⟩

instance : IsTrans ScanEnt scanPathLe :=
  ⟨fun _ _ _ h h2 => le_trans h h2⟩

/-- The sorted scan results. -/
def sortScan (l : List ScanEnt) : List ScanEnt :=
  l.insertionSort scanPathLe

/-- Add a non-hardlink entry to the classification under its kind,
keeping only the `SF_IMMUTABLE` bit of the lstat flags.  The
`expect`-guarded hash/symlink fields fall back to defaults, which the
pool never produces. -/
def addScanEnt (hash : Bool) (f : ScanEnt) (md : Metadata) : Metadata :=
  let flags := f.flags &&& SF_IMMUTABLE
  match f.ftype with
  | .dir =>
    { md with dirs := (f.path, ⟨f.path, f.uid, f.gid, f.mode, flags⟩) :: md.dirs }
  | .file =>
    let sha256 := if hash then f.sha256.getD 0 else 0
    { md with files :=
        (f.path, ⟨f.path, sha256, f.uid, f.gid, f.mode, flags⟩) :: md.files }
  | .symlink =>
    { md with symlinks :=
        (f.path, ⟨f.path, f.symlink.getD "", f.uid, f.gid, f.mode, flags⟩)
          :: md.symlinks }

/-- The classification fold of `scan_inner`: `hlinks` is the
(dev, ino) → first-path map of already-seen multi-link entries. -/
def classifyScan (hash : Bool) (hlinks : List ((Nat × Nat) × String)) :
    List ScanEnt → Metadata
  | [] => ⟨[], [], [], [], []⟩
  | f :: rest =>
    if 1 < f.nlink then
      match hlinks.lookup (f.dev, f.ino) with
      | some targ =>
        let md := classifyScan hash hlinks rest
        { md with hardlinks := (f.path, ⟨f.path, targ⟩) :: md.hardlinks }
      | none =>
        addScanEnt hash f
          (classifyScan hash (((f.dev, f.ino), f.path) :: hlinks) rest)
    else
      addScanEnt hash f (classifyScan hash hlinks rest)

/-- Model of `scan_inner` after the pool has run: the `oks` entries are
sorted ascending by path and classified; the pool's `missing` paths
become the dash set (a `HashSet`, represented canonically sorted). -/
def scan_inner (hash : Bool) (oks : List ScanEnt) (missing : List String) :
    Metadata :=
  let md := classifyScan hash [] (sortScan oks)
  { md with dashes := missing.insertionSort (· ≤ ·) }

/-- The earliest path in ascending path order among the scanned entries
with the given (dev, ino) pair and link count above one. -/
def earliestDin (oks : List ScanEnt) (dev ino : Nat) : Option String :=
  (((sortScan oks).filter fun g =>
      decide (1 < g.nlink) && g.dev == dev && g.ino == ino).head?).map
    fun g => g.path

/-! ### Install ordering (src/core/install/install.rs)

Models of the predefined regexes and of the order in which `split` and
`do_mdl_installs` apply the records of a `SplitTypes`.
-/

/-- Tail matcher for `.*\.so\.[0-9]+$` starting at the current
position: skip any run of non-newline characters, then require a
literal `.so.` followed by one or more digits reaching the end. -/
def soDotTail : List Char → Bool
  | [] => false
  | c :: rest =>
    (decide ((c :: rest).take 4 = ['.', 's', 'o', '.']) &&
      !((c :: rest).drop 4).isEmpty && ((c :: rest).drop 4).all Char.isDigit) ||
    (decide (c ≠ '\n') && soDotTail rest)

/-- Model of `re_linker_file()` matching,
`^/libexec/ld-elf.*\.so\.[0-9]+$`. -/
def re_linker_file_match (s : String) : Bool :=
  decide (s.data.take 15 = "/libexec/ld-elf".data) && soDotTail (s.data.drop 15)

/-- Inner scan for `re_so_file` matching: try `/lib/` at every start
position (the regex is unanchored at the left). -/
def soScan : List Char → Bool
  | [] => false
  | c :: rest =>
    (decide ((c :: rest).take 5 = "/lib/".data) && soDotTail ((c :: rest).drop 5)) ||
    soScan rest

/-- Model of `re_so_file()` matching, `.*/lib/.*\.so\.[0-9]+$`. -/
def re_so_file_match (s : String) : Bool :=
  soScan s.data

/-- The kind tag of an install pass. -/
inductive InstKind
  | dir
  | file
  | sym
  | hard
deriving DecidableEq, Repr

/-- Type-order rank of the four `split` passes. -/
def kindRank : InstKind → Nat
  | .dir => 0
  | .file => 1
  | .sym => 2
  | .hard => 3

/-- Batch rank inside one `do_mdl_installs` call: runtime linker, then
shared libraries, then everything else. -/
def fileRank (p : String) : Nat :=
  if re_linker_file_match p then 0
  else if re_so_file_match p then 1
  else 2

/-- The path key sets of a `SplitTypes` (each map holds records of a
single kind). -/
structure SplitTypes where
  dirs : List String
  files : List String
  syms : List String
  hards : List String
  flags : List String
deriving DecidableEq, Repr

/-- Path order used by `hm.keys().sorted()`. -/
def sortPaths (l : List String) : List String :=
  l.insertionSort (· ≤ ·)

/-- Model of the order `do_mdl_installs` walks one map's keys: the
directory map takes the shortcut (plain sorted order); any other map is
walked in sorted order split into linker / shared-library / rest
batches. -/
def do_mdl_installs_order (isDirMap : Bool) (keys : List String) :
    List String :=
  if isDirMap then sortPaths keys
  else
    let s := sortPaths keys
    let lds := s.filter fun p => re_linker_file_match p
    let shlibs := s.filter fun p =>
      !re_linker_file_match p && re_so_file_match p
    let rest := s.filter fun p =>
      !re_linker_file_match p && !re_so_file_match p
    lds ++ shlibs ++ rest

/-- Model of the order `split` applies a `SplitTypes`: the directory
map, then the file map, then the symlink map, then the hardlink map,
each walked per `do_mdl_installs` (the flag pass mutates no paths and
is not an install event). -/
def install_split_order (st : SplitTypes) : List (String × InstKind) :=
  (do_mdl_installs_order true st.dirs).map (fun p => (p, .dir)) ++
    (do_mdl_installs_order false st.files).map (fun p => (p, .file)) ++
    (do_mdl_installs_order false st.syms).map (fun p => (p, .sym)) ++
    (do_mdl_installs_order false st.hards).map (fun p => (p, .hard))

/-- Order relation the file pass obeys: earlier batch first, sorted
paths inside a batch. -/
def fileBatchLe (p q : String) : Prop :=
  fileRank p < fileRank q ∨ (fileRank p = fileRank q ∧ p ≤ q)

/-! ### Keytag parsing (src/server/keytag.rs) -/

/-- A requested version: release ("13.2"), reltype ("RELEASE"), patch. -/
structure AVersion where
  release : String
  reltype : String
  patch : Option Nat
deriving DecidableEq, Repr

/-- Parsed key/tag data. -/
structure KeyTag where
  patch : Option Nat
  tidx : String
  eoltime : Int
deriving DecidableEq, Repr

/-- Model of `KeyTag::from_str`: the pipe-separated decrypted tag is
accepted only when the magic field is `freebsd-update`, the arch field
equals `xarch`, the release field starts with the requested release and
ends with the requested reltype, and patch/eol parse numerically (the
eol field is trimmed of the trailing newline first). -/
def keytag_from_str (s : String) (xarch : String) (xvers : AVersion) :
    Option KeyTag :=
  match splitPipe s with
  | f0 :: f1 :: f2 :: f3 :: f4 :: f5 :: _ =>
    if f0 = "freebsd-update" then
      if f1 = xarch then
        if strStarts f2 xvers.release && strEnds f2 xvers.reltype then
          match parse_u32 f3 with
          | some p =>
            let patch := if p = 0 then none else some p
            match parse_i64 (trimStr f5) with
            | some e => some ⟨patch, f4, e⟩
            | none => none
          | none => none
        else none
      else none
    else none
  | _ => none

/-! ### The install command gate (src/cmd/install.rs, `run`)

The command's effectful body is modelled as a trace builder over an
abstract outcome: the loaded on-disk state is examined and, for a
pending upgrade with unresolved conflicts, the command bails before the
hash check, boot-environment, flag-clearing and install stages ever
run.  Everything past the conflict gate (lines 90 onward of the source)
is an arbitrary continuation `rest`, so the theorems hold for every
behavior of the remainder.
-/

/-- Hash tuple of a merge outcome (`core::merge::Clean`/`Conflict`). -/
structure MergeHashes where
  old : Nat
  new : Nat
  cur : Nat
  res : Nat
deriving DecidableEq, Repr

/-- Pending manifest of a fetch (`ManiFetch`; the version field is not
relevant here). -/
structure ManiFetch where
  cur : Metadata
  new : Metadata
deriving DecidableEq, Repr

/-- Pending manifest of an upgrade (`ManiUpgrade`). -/
structure ManiUpgrade where
  kernel : Bool
  world : Bool
  cur : Metadata
  new : Metadata
  merge_clean : List (String × MergeHashes)
  merge_conflict : List (String × MergeHashes)
deriving DecidableEq, Repr

/-- A pending manifest. -/
inductive Manifest
  | fetch (mf : ManiFetch)
  | upgrade (mu : ManiUpgrade)
deriving DecidableEq, Repr

/-- Metadata index hashes (`MetadataIdx`). -/
structure MetadataIdx where
  hash_all : Option Nat
  hash_new : Option Nat
  hash_old : Option Nat
deriving DecidableEq, Repr

/-- Persisted inter-run state (`state::State`). -/
structure State where
  meta_idx : Option MetadataIdx
  manifest : Option Manifest
deriving DecidableEq, Repr

/-- Filesystem-mutating steps the install command can take. -/
inductive Effect
  | bectl_create (name : String)
  | unschg (path : String)
  | backup_kernel
  | install_path (path : String) (kind : InstKind)
  | remove_path (path : String)
  | kldxref
  | post_world
  | state_write (st : State)
deriving DecidableEq, Repr

instance : DecidableEq (Except String Unit)
  | .ok (), .ok () => isTrue rfl
  | .ok (), .error _ => isFalse fun h => by cases h
  | .error _, .ok () => isFalse fun h => by cases h
  | .error a, .error b =>
    if h : a = b then isTrue (by rw [h])
    else isFalse fun hh => by cases hh; exact h rfl

/-- Observable outcome of one install invocation: the mutations
performed, the persisted state after the run, and the command result. -/
structure RunOutcome where
  effects : List Effect
  persisted : Option State
  result : Except String Unit
deriving DecidableEq, Repr

/-- Model of the front of `cmd::install::run`: load the state (bailing
when none exists or no manifest is pending), then refuse a pending
upgrade that still has merge conflicts before any mutation; `rest` is
the whole remainder of the command. -/
def install_cmd_run (disk : Option State) (rest : State → RunOutcome) :
    RunOutcome :=
  match disk with
  | none =>
    ⟨[], disk, .error "No state to load; no fetch/upgrade has been run?"⟩
  | some s =>
    match s.manifest with
    | none => ⟨[], disk, .ok ()⟩
    | some m =>
      match m with
      | .upgrade mu =>
        if 0 < mu.merge_conflict.length then
          ⟨[], disk, .error "Unresolved merge conflicts"⟩
        else rest s
      | .fetch _ => rest s

/-! ### Concrete inputs used by counterexamples and witnesses -/

/-- Empty metadata set. -/
def mdEmpty : Metadata := ⟨[], [], [], [], []⟩

/-- Metadata set holding one file at `/x` with content hash 1. -/
def c4a : Metadata := ⟨[], [], [("/x", ⟨"/x", 1, 0, 0, 420, 0⟩)], [], []⟩

/-- Metadata set holding one file at `/x` with content hash 2. -/
def c4b : Metadata := ⟨[], [], [("/x", ⟨"/x", 2, 0, 0, 420, 0⟩)], [], []⟩

/-- Metadata set holding one directory at `/d` with mode 0755. -/
def c4wa : Metadata := ⟨[("/d", ⟨"/d", 0, 0, 493, 0⟩)], [], [], [], []⟩

/-- Metadata set holding one directory at `/d` with mode 0700. -/
def c4wb : Metadata := ⟨[("/d", ⟨"/d", 0, 0, 448, 0⟩)], [], [], [], []⟩

/-- An `f` metadata line whose trailing (hardlink-target) field is the
non-empty relative path `x`. -/
def c6line : String :=
  "world|base|/bin/test|f|0|0|0555|0|3ad985a50b79037b9672cf197fbc67bd54766199e190055101ea7d8c64ca843b|x"

/-- A decrypted tag whose release field `1.2.1-RELEASE` merely starts
with the requested release `1.2`. -/
def c7tag : String := "freebsd-update|amd64|1.2.1-RELEASE|2|hashhash|12345"

/-- The requested version 1.2-RELEASE. -/
def c7vers : AVersion := ⟨"1.2", "RELEASE", none⟩

/-- A well-formed decrypted tag for 13.2-RELEASE with a trailing
newline on the EOL field. -/
def c7okTag : String :=
  "freebsd-update|amd64|13.2-RELEASE|2|idxhash|1700000000\n"

/-- The requested version 13.2-RELEASE. -/
def c7okVers : AVersion := ⟨"13.2", "RELEASE", none⟩

/-- An edited merge file in which only the diff3 separator line (seven
equals signs) remains. -/
def c9file : String := "ours line\n=======\ntheirs line\n"

/-- A pending upgrade manifest with one unresolved conflict. -/
def c2mu : ManiUpgrade :=
  ⟨false, false, mdEmpty, mdEmpty, [], [("/etc/hosts", ⟨1, 2, 3, 4⟩)]⟩

/-- Persisted state carrying the conflicted upgrade. -/
def c2state : State := ⟨none, some (.upgrade c2mu)⟩

/-- An arbitrary nontrivial remainder for the install command. -/
def c2rest : State → RunOutcome :=
  fun _ => ⟨[Effect.backup_kernel], none, .ok ()⟩

/-- Scan entry `/a`, two links, device 5 inode 9. -/
def c3e1 : ScanEnt := ⟨"/a", 2, 5, 9, .file, 0, 0, 420, 0, some 11, none⟩

/-- Scan entry `/b`, two links, device 5 inode 9 (same inode as
`/a`). -/
def c3e2 : ScanEnt := ⟨"/b", 2, 5, 9, .file, 0, 0, 420, 0, some 11, none⟩

/-- Component metadata with files `/p1` and `/p2`. -/
def c5md1 : Metadata :=
  ⟨[], [], [("/p1", ⟨"/p1", 1, 0, 0, 0, 0⟩), ("/p2", ⟨"/p2", 2, 0, 0, 0, 0⟩)],
    [], []⟩

/-- Component metadata with files `/q1` and `/q2`. -/
def c5md2 : Metadata :=
  ⟨[], [], [("/q1", ⟨"/q1", 3, 0, 0, 0, 0⟩), ("/q2", ⟨"/q2", 4, 0, 0, 0, 0⟩)],
    [], []⟩

/-- A two-component group: world/base and src/src. -/
def c5g : MetadataGroup :=
  ⟨[(⟨.world, some .base⟩, c5md1), (⟨.src, some .src⟩, c5md2)]⟩

/-- Scan entry with flags 0x30001 (immutable bit plus two others). -/
def c10ent : ScanEnt := ⟨"/a", 1, 1, 1, .file, 0, 0, 420, 196609, some 7, none⟩

/-- The file record the scan produces for `c10ent`: only the 0x20000
flag bit survives. -/
def c10mf : MetaFile := ⟨"/a", 7, 0, 0, 420, 131072⟩

/-! ### Helper lemmas -/

theorem pairwiseOfForall {α : Type} {R : α → α → Prop} (h : ∀ a b, R a b) :
    ∀ l : List α, l.Pairwise R
  | [] => .nil
  | a :: t => .cons (fun b _ => h a b) (pairwiseOfForall h t)

theorem lookup_eq_of_mem {α : Type} {l : List (String × α)} {p : String}
    {v : α} (hnd : (l.map Prod.fst).Nodup) (hm : (p, v) ∈ l) :
    l.lookup p = some v := by
  induction l with
  | nil => cases hm
  | cons kv t ih =>
    rcases List.mem_cons.mp hm with h | h
    · subst h
      simp [List.lookup]
    · have hne : kv.1 ≠ p := by
        intro he
        have : p ∈ t.map Prod.fst := by
          have := List.mem_map_of_mem Prod.fst h
          simpa using this
        exact (List.nodup_cons.mp hnd).1 (he ▸ this)
      have hne2 : (p == kv.1) = false := by
        simp [beq_eq_false_iff_ne]
        exact fun he => hne he.symm
      simp [List.lookup, hne2]
      exact ih (List.nodup_cons.mp hnd).2 h

theorem mem_of_lookup_eq {α : Type} {l : List (String × α)} {p : String}
    {v : α} (h : l.lookup p = some v) : (p, v) ∈ l := by
  induction l with
  | nil => simp [List.lookup] at h
  | cons kv t ih =>
    rw [List.lookup] at h
    by_cases he : p = kv.1
    · subst he
      simp at h
      subst h
      exact List.mem_cons_self _ _
    · have : (p == kv.1) = false := by simpa [beq_eq_false_iff_ne] using he
      rw [this] at h
      exact List.mem_cons_of_mem _ (ih h)

/-! ### Claim theorems -/

/-- Claim C8: for every now and eol timestamp, the EOL check emits the
strong (HAS PASSED ITS END-OF-LIFE) warning iff now ≥ eol, emits the
softer approaching-end-of-life warning iff now < eol and
now + 90 days ≥ eol, and emits nothing otherwise. -/
theorem c8_eol_policy (now eol : Int) :
    ((eol_warning_be now eol = some .strong) ↔ eol ≤ now) ∧
    ((∃ u, eol_warning_be now eol = some (.approaching u)) ↔
      (now < eol ∧ eol ≤ now + 90 * 86400)) ∧
    ((eol_warning_be now eol = none) ↔ now + 90 * 86400 < eol) := by
  unfold eol_warning_be
  by_cases h1 : now ≥ eol
  · rw [if_pos h1]
    refine ⟨by simpa using h1, ?_, by simp; omega⟩
    constructor
    · rintro ⟨u, hu⟩
      simp at hu
    · rintro ⟨hl, _⟩
      omega
  · rw [if_neg h1]
    by_cases h2 : now + 90 * 86400 ≥ eol
    · rw [if_pos h2]
      refine ⟨by simp; omega, ?_, by simp; omega⟩
      constructor
      · intro _
        omega
      · intro _
        exact ⟨_, rfl⟩
    · rw [if_neg h2]
      refine ⟨by simp; omega, ?_, by simp; omega⟩
      constructor
      · rintro ⟨u, hu⟩
        simp at hu
      · rintro ⟨_, hr⟩
        omega

/-- Claim C9 (code bug): an edited merge file in which only the diff3
separator line of seven equals signs remains does contain a diff3
conflict marker, yet the driver's marker regex (which demands eight
equals signs) does not match, so the driver offers acceptance instead
of the edit/skip prompt the claim requires. -/
theorem c9_marker_gap :
    resolve_check c9file = .offerAccept ∧
    cfmarker_is_match c9file = false ∧
    spec_has_marker c9file = true := by decide

/-- Claim C2: when the pending manifest is a VersionUpgrade with a
non-empty conflict map, the install command fails with "Unresolved
merge conflicts" performing no filesystem mutation (empty effect
trace), and the persisted state is exactly the loaded one — for every
possible behavior `rest` of the remainder of the command. -/
theorem c2_conflict_gate (disk : Option State) (rest : State → RunOutcome)
    (s : State) (mu : ManiUpgrade) (hd : disk = some s)
    (hm : s.manifest = some (.upgrade mu)) (hc : mu.merge_conflict ≠ []) :
    install_cmd_run disk rest =
      ⟨[], disk, .error "Unresolved merge conflicts"⟩ := by
  subst hd
  obtain ⟨mi, mans⟩ := s
  change mans = some (.upgrade mu) at hm
  subst hm
  unfold install_cmd_run
  simp [List.length_pos.mpr hc]

/-- Witness for C2 at a concrete conflicted upgrade state. -/
theorem c2_conflict_gate_witness :
    install_cmd_run (some c2state) c2rest =
      ⟨[], some c2state, .error "Unresolved merge conflicts"⟩ :=
  c2_conflict_gate (some c2state) c2rest c2state c2mu rfl rfl (by decide)

/-- Claim C7 (amended): parsing the decrypted tag succeeds only when
the arch field equals the running machine's architecture and the
release field begins with the requested release and ends with the
requested reltype; tags violating these parse to an error (and an
erroring server is not accepted). -/
theorem c7_tag_checks (s xarch : String) (xvers : AVersion) (kt : KeyTag)
    (h : keytag_from_str s xarch xvers = some kt) :
    ∀ f0 f1 f2 f3 f4 f5 r, splitPipe s = f0 :: f1 :: f2 :: f3 :: f4 :: f5 :: r →
      f0 = "freebsd-update" ∧ f1 = xarch ∧
        strStarts f2 xvers.release = true ∧ strEnds f2 xvers.reltype = true := by
  intro f0 f1 f2 f3 f4 f5 r hsp
  unfold keytag_from_str at h
  rw [hsp] at h
  dsimp only at h
  by_cases h0 : f0 = "freebsd-update"
  · rw [if_pos h0] at h
    by_cases h1 : f1 = xarch
    · rw [if_pos h1] at h
      by_cases h2 : (strStarts f2 xvers.release && strEnds f2 xvers.reltype) = true
      · exact ⟨h0, h1, (Bool.and_eq_true _ _).mp h2 |>.1,
          (Bool.and_eq_true _ _).mp h2 |>.2⟩
      · rw [if_neg h2] at h
        cases h
    · rw [if_neg h1] at h
      cases h
  · rw [if_neg h0] at h
    cases h

/-- Counterexample for C7 as stated: a tag whose release field is
`1.2.1-RELEASE` parses successfully against requested version
1.2-RELEASE, although the field does not equal the requested
release-reltype. -/
theorem c7_prefix_counterexample :
    (keytag_from_str c7tag "amd64" c7vers).isSome = true ∧
    splitPipe c7tag =
      ["freebsd-update", "amd64", "1.2.1-RELEASE", "2", "hashhash", "12345"] ∧
    "1.2.1-RELEASE" ≠ c7vers.release ++ "-" ++ c7vers.reltype := by decide

/-- Witness for C7 at a concrete accepted tag. -/
theorem c7_tag_checks_witness :
    ("freebsd-update" : String) = "freebsd-update" ∧
      ("amd64" : String) = "amd64" ∧
      strStarts "13.2-RELEASE" "13.2" = true ∧
      strEnds "13.2-RELEASE" "RELEASE" = true :=
  c7_tag_checks c7okTag "amd64" c7okVers ⟨some 2, "idxhash", 1700000000⟩
    (by decide) "freebsd-update" "amd64" "13.2-RELEASE" "2" "idxhash"
    "1700000000\n" [] (by decide)

/-- Claim C6 (amended): for every successfully parsing `f` line whose
trailing (hardlink-target) field is an absolute path (begins with `/`),
the line parses as a Hardlink record whose target is that field, and
the sha256 field has no effect on the parsed record (any other valid
sha256 yields the identical record). -/
theorem c6_hardlink_parse (c0 c1 p u g m fl sh sh2 t : String)
    (tail : List String) (pl pl2 : ParseLine)
    (h1 : parse_fields
        (c0 :: c1 :: p :: "f" :: u :: g :: m :: fl :: sh :: t :: tail) = some pl)
    (h2 : parse_fields
        (c0 :: c1 :: p :: "f" :: u :: g :: m :: fl :: sh2 :: t :: tail) = some pl2)
    (habs : pathIsAbsolute t = true) :
    pl.mdline = .hardLink ⟨p, t⟩ ∧ pl = pl2 := by
  unfold parse_fields at h1 h2
  dsimp only at h1 h2
  simp only [Option.bind_eq_some] at h1 h2
  obtain ⟨comp, hcomp, sub, hsub, uid, hu, gid, hg, mode, hm, flags, hf,
    sha, hsh, hres⟩ := h1
  obtain ⟨comp2, hcomp2, sub2, hsub2, uid2, hu2, gid2, hg2, mode2, hm2,
    flags2, hf2, sha2, hsh2, hres2⟩ := h2
  rw [if_pos habs] at hres hres2
  rw [hcomp] at hcomp2
  rw [hsub] at hsub2
  cases hcomp2
  cases hsub2
  cases hres
  cases hres2
  exact ⟨rfl, rfl⟩

/-- Counterexample for C6 as stated: an `f` line with the non-empty but
relative trailing field `x` parses successfully as a File record, not
as a Hardlink. -/
theorem c6_relative_target_counterexample :
    (splitPipe c6line).length = 10 ∧
    (splitPipe c6line).getLast? = some "x" ∧
    (parse_line c6line).map (fun pl => pl.mdline.isHardLink) = some false := by
  decide

/-- Witness for C6 at a concrete hardlink line (the canonical
`/bin/test -> /bin/[` pair) with two different sha256 fields. -/
theorem c6_hardlink_parse_witness :
    (⟨⟨.world, some .base⟩, .hardLink ⟨"/bin/test", "/bin/["⟩⟩ :
        ParseLine).mdline = .hardLink ⟨"/bin/test", "/bin/["⟩ ∧
      (⟨⟨.world, some .base⟩, .hardLink ⟨"/bin/test", "/bin/["⟩⟩ :
        ParseLine) = ⟨⟨.world, some .base⟩, .hardLink ⟨"/bin/test", "/bin/["⟩⟩ :=
  c6_hardlink_parse "world" "base" "/bin/test" "0" "0" "0555" "0"
    "3ad985a50b79037b9672cf197fbc67bd54766199e190055101ea7d8c64ca843b"
    "aaaaaaaaaaaaaaaaaaaaaaaaaaaaaaaaaaaaaaaaaaaaaaaaaaaaaaaaaaaaaaaa"
    "/bin/[" [] _ _ (by decide) (by decide) (by decide)

theorem filter_unmatched_breaks {α : Type} (eqf : α → α → Bool)
    (la lb : List (String × α)) (hnd : (la.map Prod.fst).Nodup) {p : String}
    (h : p ∈ (la.filter fun kv =>
        ! matchesOpt eqf kv.2 (lb.lookup kv.1)).map Prod.fst) :
    ¬ ∀ v, la.lookup p = some v → matchesOpt eqf v (lb.lookup p) = true := by
  obtain ⟨kv, hkv, hfst⟩ := List.mem_map.mp h
  obtain ⟨hmem, hpred⟩ := List.mem_filter.mp hkv
  intro hall
  have hkv2 : (p, kv.2) ∈ la := by
    rw [← hfst]
    exact hmem
  have hlook := lookup_eq_of_mem hnd hkv2
  have hmt := hall kv.2 hlook
  rw [hfst] at hpred
  rw [hmt] at hpred
  simp at hpred

/-- Claim C4 (amended): after `a.remove_matching(b)`, every path lying
in both `a.allpaths` and `b.allpaths` either has records that differ
between `a` and `b` (unequal content, or different kinds), or is a
hardlink of `a` whose target file remains in `a`'s file map; entries
with identical records are removed except such hardlinks. -/
theorem c4_remove_matching (ugid : Bool) (a b : Metadata) (hwf : a.WF)
    (p : String) (hpa : p ∈ (a.remove_matching b ugid).allpaths)
    (_hpb : p ∈ b.allpaths) :
    ¬ Metadata.sameAt ugid a b p ∨
      (a.remove_matching b ugid).hardlinkTargetLive p := by
  obtain ⟨hndd, hnds, hndf, hndh, hndD⟩ := hwf
  unfold Metadata.remove_matching Metadata.remove_matching_inner
      Metadata.allpaths Metadata.allpaths_inner at hpa
  rw [List.mem_dedup] at hpa
  simp only [List.mem_append] at hpa
  rcases hpa with ((((hd | hf) | hs) | hh) | hD)
  · exact .inl fun hsame =>
      filter_unmatched_breaks (metaDirEq ugid) a.dirs b.dirs hndd hd hsame.2.1
  · exact .inl fun hsame =>
      filter_unmatched_breaks (metaFileEq ugid) a.files b.files hndf hf
        hsame.1
  · exact .inl fun hsame =>
      filter_unmatched_breaks metaSymLinkEq a.symlinks b.symlinks hnds hs
        hsame.2.2.1
  · obtain ⟨kv, hkv, hfst⟩ := List.mem_map.mp hh
    obtain ⟨hmem, hpred⟩ := List.mem_filter.mp hkv
    rw [Bool.or_eq_true] at hpred
    rcases hpred with hlive | hnm
    · refine .inr ⟨kv, ?_, hfst, ?_⟩
      · exact hkv
      · rw [Bool.true_and] at hlive
        exact hlive
    · refine .inl fun hsame => ?_
      have hkv2 : (p, kv.2) ∈ a.hardlinks := by
        rw [← hfst]
        exact hmem
      have hlook := lookup_eq_of_mem hndh hkv2
      have hmt := hsame.2.2.2.1 kv.2 hlook
      rw [hfst, hmt] at hnm
      simp at hnm
  · obtain ⟨hmem, hpred⟩ := List.mem_filter.mp hD
    refine .inl fun hsame => ?_
    have hb := hsame.2.2.2.2 hmem
    simp at hpred
    exact hpred hb

/-- Counterexample for C4 as stated: with `a` and `b` holding the file
`/x` with different hashes, `/x` stays in both path sets after
`remove_matching` although it is not a hardlink. -/
theorem c4_disjoint_counterexample :
    "/x" ∈ (c4a.remove_matching c4b true).allpaths ∧
    "/x" ∈ c4b.allpaths ∧
    ¬ (c4a.remove_matching c4b true).hardlinkTargetLive "/x" := by decide

/-- Witness for C4 at a concrete pair differing in a directory mode. -/
theorem c4_remove_matching_witness :
    ¬ Metadata.sameAt true c4wa c4wb "/d" ∨
      (c4wa.remove_matching c4wb true).hardlinkTargetLive "/d" :=
  c4_remove_matching true c4wa c4wb (by decide) "/d" (by decide) (by decide)

theorem contains_full_iff (c d : Component) (hs : c.subcomp.isSome = true) :
    c.contains d = true ↔ c = d := by
  unfold Component.contains
  obtain ⟨cc, cs⟩ := c
  obtain ⟨dc, ds⟩ := d
  cases cs with
  | none => simp at hs
  | some s =>
    by_cases h : cc = dc
    · subst h
      simp
    · simp [h]

/-- Claim C5: a component of the all manifest is retained by the
component heuristic iff at least half of its declared (non-dash) paths
are present in the current path set; the others are dropped. -/
theorem c5_component_heuristic (g : MetadataGroup) (existing : List String)
    (hfull : ∀ cm ∈ g.md, cm.1.subcomp.isSome = true)
    (hnd : (g.md.map Prod.fst).Nodup) (cm : Component × Metadata)
    (hcm : cm ∈ g.md) :
    cm ∈ (g.keep_components (g.components_check existing)).md ↔
      cm.2.allpaths_nodash.length ≤
        2 * (cm.2.allpaths_nodash.filter fun p => existing.contains p).length := by
  unfold MetadataGroup.keep_components MetadataGroup.components_check
  constructor
  · intro hmem
    obtain ⟨_, hany⟩ := List.mem_filter.mp hmem
    rw [List.any_eq_true] at hany
    obtain ⟨c, hc, hcont⟩ := hany
    obtain ⟨cm2, hcm2, hsome⟩ := List.mem_filterMap.mp hc
    dsimp only at hsome
    by_cases hcond : cm2.2.allpaths_nodash.length ≤
        (cm2.2.allpaths_nodash.filter fun p => existing.contains p).length * 2
    · rw [if_pos hcond] at hsome
      injection hsome with hc2
      subst hc2
      rw [contains_full_iff _ _ (hfull cm2 hcm2)] at hcont
      have heq := List.inj_on_of_nodup_map hnd hcm2 hcm hcont
      subst heq
      omega
    · rw [if_neg hcond] at hsome
      cases hsome
  · intro hcond
    refine List.mem_filter.mpr ⟨hcm, ?_⟩
    rw [List.any_eq_true]
    refine ⟨cm.1, ?_, (contains_full_iff _ _ (hfull cm hcm)).mpr rfl⟩
    refine List.mem_filterMap.mpr ⟨cm, hcm, ?_⟩
    dsimp only
    rw [if_pos (by omega)]

/-- Witness for C5 at a concrete two-component group: world/base has
both of its paths present, so the retained-iff-half-present equivalence
is inhabited on both sides. -/
theorem c5_component_heuristic_witness :
    (⟨.world, some .base⟩, c5md1) ∈
        (c5g.keep_components (c5g.components_check ["/p1", "/p2"])).md ↔
      c5md1.allpaths_nodash.length ≤
        2 * (c5md1.allpaths_nodash.filter
          fun p => (["/p1", "/p2"] : List String).contains p).length :=
  c5_component_heuristic c5g ["/p1", "/p2"] (by decide) (by decide)
    (⟨.world, some .base⟩, c5md1) (by decide)

theorem addScanEnt_hardlinks (hash : Bool) (f : ScanEnt) (md : Metadata) :
    (addScanEnt hash f md).hardlinks = md.hardlinks := by
  unfold addScanEnt
  split <;> rfl

theorem addScanEnt_files_mem (hash : Bool) (f : ScanEnt) (md : Metadata)
    (p : String) (mf : MetaFile)
    (h : (p, mf) ∈ (addScanEnt hash f md).files) :
    (p = f.path ∧ mf.flags = f.flags &&& SF_IMMUTABLE) ∨ (p, mf) ∈ md.files := by
  unfold addScanEnt at h
  split at h
  · exact .inr h
  · rcases List.mem_cons.mp h with he | ht
    · injection he with h1 h2
      exact .inl ⟨h1, by rw [h2]⟩
    · exact .inr ht
  · exact .inr h

theorem addScanEnt_dirs_mem (hash : Bool) (f : ScanEnt) (md : Metadata)
    (p : String) (d : MetaDir)
    (h : (p, d) ∈ (addScanEnt hash f md).dirs) :
    (p = f.path ∧ d.flags = f.flags &&& SF_IMMUTABLE) ∨ (p, d) ∈ md.dirs := by
  unfold addScanEnt at h
  split at h
  · rcases List.mem_cons.mp h with he | ht
    · injection he with h1 h2
      exact .inl ⟨h1, by rw [h2]⟩
    · exact .inr ht
  · exact .inr h
  · exact .inr h

theorem addScanEnt_symlinks_mem (hash : Bool) (f : ScanEnt) (md : Metadata)
    (p : String) (sl : MetaSymLink)
    (h : (p, sl) ∈ (addScanEnt hash f md).symlinks) :
    (p = f.path ∧ sl.flags = f.flags &&& SF_IMMUTABLE) ∨
      (p, sl) ∈ md.symlinks := by
  unfold addScanEnt at h
  split at h
  · exact .inr h
  · exact .inr h
  · rcases List.mem_cons.mp h with he | ht
    · injection he with h1 h2
      exact .inl ⟨h1, by rw [h2]⟩
    · exact .inr ht

theorem classifyScan_files_flags (hash : Bool) (s : List ScanEnt) :
    ∀ (hl : List ((Nat × Nat) × String)) (p : String) (mf : MetaFile),
      (p, mf) ∈ (classifyScan hash hl s).files →
      ∃ e ∈ s, e.path = p ∧ mf.flags = e.flags &&& SF_IMMUTABLE := by
  induction s with
  | nil =>
    intro hl p mf hm
    simp [classifyScan] at hm
  | cons f t ih =>
    intro hl p mf hm
    unfold classifyScan at hm
    by_cases hn : 1 < f.nlink
    · rw [if_pos hn] at hm
      split at hm
      · dsimp only at hm
        obtain ⟨e, he, h1, h2⟩ := ih _ p mf hm
        exact ⟨e, List.mem_cons_of_mem _ he, h1, h2⟩
      · rcases addScanEnt_files_mem hash f _ p mf hm with ⟨h1, h2⟩ | hin
        · exact ⟨f, List.mem_cons_self _ _, h1.symm, h2⟩
        · obtain ⟨e, he, h1, h2⟩ := ih _ p mf hin
          exact ⟨e, List.mem_cons_of_mem _ he, h1, h2⟩
    · rw [if_neg hn] at hm
      rcases addScanEnt_files_mem hash f _ p mf hm with ⟨h1, h2⟩ | hin
      · exact ⟨f, List.mem_cons_self _ _, h1.symm, h2⟩
      · obtain ⟨e, he, h1, h2⟩ := ih _ p mf hin
        exact ⟨e, List.mem_cons_of_mem _ he, h1, h2⟩

theorem classifyScan_dirs_flags (hash : Bool) (s : List ScanEnt) :
    ∀ (hl : List ((Nat × Nat) × String)) (p : String) (d : MetaDir),
      (p, d) ∈ (classifyScan hash hl s).dirs →
      ∃ e ∈ s, e.path = p ∧ d.flags = e.flags &&& SF_IMMUTABLE := by
  induction s with
  | nil =>
    intro hl p d hm
    simp [classifyScan] at hm
  | cons f t ih =>
    intro hl p d hm
    unfold classifyScan at hm
    by_cases hn : 1 < f.nlink
    · rw [if_pos hn] at hm
      split at hm
      · dsimp only at hm
        obtain ⟨e, he, h1, h2⟩ := ih _ p d hm
        exact ⟨e, List.mem_cons_of_mem _ he, h1, h2⟩
      · rcases addScanEnt_dirs_mem hash f _ p d hm with ⟨h1, h2⟩ | hin
        · exact ⟨f, List.mem_cons_self _ _, h1.symm, h2⟩
        · obtain ⟨e, he, h1, h2⟩ := ih _ p d hin
          exact ⟨e, List.mem_cons_of_mem _ he, h1, h2⟩
    · rw [if_neg hn] at hm
      rcases addScanEnt_dirs_mem hash f _ p d hm with ⟨h1, h2⟩ | hin
      · exact ⟨f, List.mem_cons_self _ _, h1.symm, h2⟩
      · obtain ⟨e, he, h1, h2⟩ := ih _ p d hin
        exact ⟨e, List.mem_cons_of_mem _ he, h1, h2⟩

theorem classifyScan_symlinks_flags (hash : Bool) (s : List ScanEnt) :
    ∀ (hl : List ((Nat × Nat) × String)) (p : String) (sl : MetaSymLink),
      (p, sl) ∈ (classifyScan hash hl s).symlinks →
      ∃ e ∈ s, e.path = p ∧ sl.flags = e.flags &&& SF_IMMUTABLE := by
  induction s with
  | nil =>
    intro hl p sl hm
    simp [classifyScan] at hm
  | cons f t ih =>
    intro hl p sl hm
    unfold classifyScan at hm
    by_cases hn : 1 < f.nlink
    · rw [if_pos hn] at hm
      split at hm
      · dsimp only at hm
        obtain ⟨e, he, h1, h2⟩ := ih _ p sl hm
        exact ⟨e, List.mem_cons_of_mem _ he, h1, h2⟩
      · rcases addScanEnt_symlinks_mem hash f _ p sl hm with ⟨h1, h2⟩ | hin
        · exact ⟨f, List.mem_cons_self _ _, h1.symm, h2⟩
        · obtain ⟨e, he, h1, h2⟩ := ih _ p sl hin
          exact ⟨e, List.mem_cons_of_mem _ he, h1, h2⟩
    · rw [if_neg hn] at hm
      rcases addScanEnt_symlinks_mem hash f _ p sl hm with ⟨h1, h2⟩ | hin
      · exact ⟨f, List.mem_cons_self _ _, h1.symm, h2⟩
      · obtain ⟨e, he, h1, h2⟩ := ih _ p sl hin
        exact ⟨e, List.mem_cons_of_mem _ he, h1, h2⟩

theorem testBit_masked_immutable (n i : Nat) (hi : i ≠ 17) :
    (n &&& SF_IMMUTABLE).testBit i = false := by
  have h2 : SF_IMMUTABLE = 2 ^ 17 := by decide
  rw [Nat.testBit_and, h2, Nat.testBit_two_pow_of_ne (Ne.symm hi),
    Bool.and_false]

/-- Claim C10: every file, directory or symlink record the scanner
produces carries only the SF_IMMUTABLE bit of the live entry's flags;
every other flag bit is reported as zero. -/
theorem c10_scan_flags (hash : Bool) (oks : List ScanEnt)
    (missing : List String) (p : String) :
    (∀ mf, (scan_inner hash oks missing).files.lookup p = some mf →
      (∃ e ∈ oks, e.path = p ∧ mf.flags = e.flags &&& SF_IMMUTABLE) ∧
        ∀ i, i ≠ 17 → mf.flags.testBit i = false) ∧
    (∀ d, (scan_inner hash oks missing).dirs.lookup p = some d →
      (∃ e ∈ oks, e.path = p ∧ d.flags = e.flags &&& SF_IMMUTABLE) ∧
        ∀ i, i ≠ 17 → d.flags.testBit i = false) ∧
    (∀ sl, (scan_inner hash oks missing).symlinks.lookup p = some sl →
      (∃ e ∈ oks, e.path = p ∧ sl.flags = e.flags &&& SF_IMMUTABLE) ∧
        ∀ i, i ≠ 17 → sl.flags.testBit i = false) := by
  refine ⟨fun mf hlk => ?_, fun d hlk => ?_, fun sl hlk => ?_⟩
  · have hm := mem_of_lookup_eq hlk
    obtain ⟨e, he, h1, h2⟩ := classifyScan_files_flags hash (sortScan oks) _ p mf hm
    have he2 : e ∈ oks := (List.mem_insertionSort _).mp he
    exact ⟨⟨e, he2, h1, h2⟩, fun i hi => h2 ▸ testBit_masked_immutable e.flags i hi⟩
  · have hm := mem_of_lookup_eq hlk
    obtain ⟨e, he, h1, h2⟩ := classifyScan_dirs_flags hash (sortScan oks) _ p d hm
    have he2 : e ∈ oks := (List.mem_insertionSort _).mp he
    exact ⟨⟨e, he2, h1, h2⟩, fun i hi => h2 ▸ testBit_masked_immutable e.flags i hi⟩
  · have hm := mem_of_lookup_eq hlk
    obtain ⟨e, he, h1, h2⟩ := classifyScan_symlinks_flags hash (sortScan oks) _ p sl hm
    have he2 : e ∈ oks := (List.mem_insertionSort _).mp he
    exact ⟨⟨e, he2, h1, h2⟩, fun i hi => h2 ▸ testBit_masked_immutable e.flags i hi⟩

/-- Witness for C10 at a concrete entry with flags 0x30001: the stored
record keeps only the 0x20000 bit. -/
theorem c10_scan_flags_witness :
    c10mf.flags = c10ent.flags &&& SF_IMMUTABLE ∧
      c10mf.flags.testBit 16 = false ∧ c10mf.flags.testBit 0 = false := by
  have h := (c10_scan_flags true [c10ent] [] "/a").1 c10mf (by decide)
  obtain ⟨⟨e, he, _, hf⟩, hb⟩ := h
  have he2 : e = c10ent := by simpa using he
  subst he2
  exact ⟨hf, hb 16 (by decide), hb 0 (by decide)⟩

theorem mem_do_mdl_installs_order (b : Bool) (l : List String) (p : String) :
    p ∈ do_mdl_installs_order b l ↔ p ∈ l := by
  unfold do_mdl_installs_order
  cases b
  · simp only [Bool.false_eq_true, if_false, List.mem_append, List.mem_filter,
      sortPaths, List.mem_insertionSort]
    by_cases h1 : re_linker_file_match p = true <;>
      by_cases h2 : re_so_file_match p = true <;> simp [h1, h2]
  · simp [sortPaths, List.mem_insertionSort]

theorem do_mdl_installs_order_false (l : List String) :
    do_mdl_installs_order false l =
      (sortPaths l).filter (fun p => re_linker_file_match p) ++
        ((sortPaths l).filter
          (fun p => !re_linker_file_match p && re_so_file_match p) ++
          (sortPaths l).filter
            (fun p => !re_linker_file_match p && !re_so_file_match p)) := by
  unfold do_mdl_installs_order
  simp

theorem filterMap_kind_self (l : List String) :
    (l.map fun p => (p, InstKind.file)).filterMap
      (fun a => if a.2 = InstKind.file then some a.1 else none) = l := by
  induction l with
  | nil => rfl
  | cons a t ih => simp [ih]

theorem filterMap_kind_other (k : InstKind) (hk : ¬ k = .file) (l : List String) :
    (l.map fun p => (p, k)).filterMap
      (fun a => if a.2 = InstKind.file then some a.1 else none) = [] := by
  induction l with
  | nil => rfl
  | cons a t ih => simp [ih, hk]

/-- Claim C1: within an install phase every directory record is applied
before any file record, every file before any symlink, and every
symlink before any hardlink; each path of a map appears under its own
pass; and within the file pass the events follow batch order — runtime
linker binaries first, then shared libraries, then everything else,
each batch in sorted path order. -/
theorem c1_install_order (st : SplitTypes) :
    (install_split_order st).Pairwise
      (fun a b => kindRank a.2 ≤ kindRank b.2) ∧
    (∀ p : String,
      ((p, InstKind.dir) ∈ install_split_order st ↔ p ∈ st.dirs) ∧
      ((p, InstKind.file) ∈ install_split_order st ↔ p ∈ st.files) ∧
      ((p, InstKind.sym) ∈ install_split_order st ↔ p ∈ st.syms) ∧
      ((p, InstKind.hard) ∈ install_split_order st ↔ p ∈ st.hards)) ∧
    ((install_split_order st).filterMap
        (fun a => if a.2 = InstKind.file then some a.1 else none)).Pairwise
      fileBatchLe := by
  have hblock : ∀ (k : InstKind) (l : List String) (x : String × InstKind),
      x ∈ l.map (fun p => (p, k)) → x.2 = k := by
    intro k l x hx
    obtain ⟨q, _, rfl⟩ := List.mem_map.mp hx
    rfl
  have hpw : ∀ (k : InstKind) (l : List String),
      (l.map fun p => (p, k)).Pairwise
        (fun a b : String × InstKind => kindRank a.2 ≤ kindRank b.2) :=
    fun k l => List.pairwise_map.mpr (pairwiseOfForall (fun _ _ => le_refl _) l)
  have hrle : ∀ k : InstKind, kindRank k ≤ 3 := by
    intro k
    cases k <;> simp [kindRank]
  refine ⟨?_, ?_, ?_⟩
  · unfold install_split_order
    refine List.pairwise_append.mpr
      ⟨List.pairwise_append.mpr
        ⟨List.pairwise_append.mpr ⟨hpw _ _, hpw _ _, ?_⟩, hpw _ _, ?_⟩,
        hpw _ _, ?_⟩
    · intro a ha b hb
      rw [hblock _ _ _ ha, hblock _ _ _ hb]
      simp [kindRank]
    · intro a ha b hb
      rw [hblock _ _ _ hb]
      rcases List.mem_append.mp ha with h | h <;> rw [hblock _ _ _ h] <;>
        simp [kindRank]
    · intro a ha b hb
      rw [hblock _ _ _ hb]
      show kindRank a.2 ≤ 3
      exact hrle _
  · intro p
    refine ⟨?_, ?_, ?_, ?_⟩ <;>
      simp [install_split_order, List.mem_append, List.mem_map,
        mem_do_mdl_installs_order]
  · have hfm : (install_split_order st).filterMap
        (fun a => if a.2 = InstKind.file then some a.1 else none) =
        do_mdl_installs_order false st.files := by
      unfold install_split_order
      rw [List.filterMap_append, List.filterMap_append, List.filterMap_append,
        filterMap_kind_self, filterMap_kind_other _ (by decide),
        filterMap_kind_other _ (by decide), filterMap_kind_other _ (by decide)]
      simp
    rw [hfm, do_mdl_installs_order_false]
    have hsorted : (sortPaths st.files).Pairwise (· ≤ ·) :=
      List.sorted_insertionSort _ _
    have hr0 : ∀ x ∈ (sortPaths st.files).filter
        (fun p => re_linker_file_match p), fileRank x = 0 := by
      intro x hx
      have := (List.mem_filter.mp hx).2
      simp [fileRank, this]
    have hr1 : ∀ x ∈ (sortPaths st.files).filter
        (fun p => !re_linker_file_match p && re_so_file_match p),
        fileRank x = 1 := by
      intro x hx
      have h := (List.mem_filter.mp hx).2
      rw [Bool.and_eq_true, Bool.not_eq_true'] at h
      simp [fileRank, h.1, h.2]
    have hr2 : ∀ x ∈ (sortPaths st.files).filter
        (fun p => !re_linker_file_match p && !re_so_file_match p),
        fileRank x = 2 := by
      intro x hx
      have h := (List.mem_filter.mp hx).2
      rw [Bool.and_eq_true, Bool.not_eq_true', Bool.not_eq_true'] at h
      simp [fileRank, h.1, h.2]
    refine List.pairwise_append.mpr ⟨?_, List.pairwise_append.mpr ⟨?_, ?_, ?_⟩, ?_⟩
    · exact (hsorted.filter _).imp_of_mem fun ha hb hle =>
        Or.inr ⟨by rw [hr0 _ ha, hr0 _ hb], hle⟩
    · exact (hsorted.filter _).imp_of_mem fun ha hb hle =>
        Or.inr ⟨by rw [hr1 _ ha, hr1 _ hb], hle⟩
    · exact (hsorted.filter _).imp_of_mem fun ha hb hle =>
        Or.inr ⟨by rw [hr2 _ ha, hr2 _ hb], hle⟩
    · intro a ha b hb
      exact Or.inl (by rw [hr1 _ ha, hr2 _ hb]; exact Nat.lt_succ_self 1)
    · intro a ha b hb
      rcases List.mem_append.mp hb with h | h
      · exact Or.inl (by rw [hr0 _ ha, hr1 _ h]; exact Nat.zero_lt_one)
      · exact Or.inl (by rw [hr0 _ ha, hr2 _ h]; exact Nat.zero_lt_two)

theorem sortStrings_eq_of_perm {m₁ m₂ : List String} (h : m₁.Perm m₂) :
    m₁.insertionSort (· ≤ ·) = m₂.insertionSort (· ≤ ·) :=
  List.eq_of_perm_of_sorted
    ((List.perm_insertionSort _ _).trans
      (h.trans (List.perm_insertionSort _ _).symm))
    (List.sorted_insertionSort _ _) (List.sorted_insertionSort _ _)

theorem sortScan_eq_of_perm {l₁ l₂ : List ScanEnt} (hp : l₁.Perm l₂)
    (hnd : (l₁.map ScanEnt.path).Nodup) : sortScan l₁ = sortScan l₂ := by
  haveI : IsAntisymm ScanEnt (fun a b => a.path < b.path) :=
    ⟨fun a b h1 h2 => absurd (lt_trans h1 h2) (lt_irrefl _)⟩
  have hstrict : ∀ (l : List ScanEnt), l.Pairwise scanPathLe →
      (l.map ScanEnt.path).Nodup →
      l.Pairwise (fun a b => a.path < b.path) := by
    intro l hle hnodup
    have hne : l.Pairwise (fun a b => a.path ≠ b.path) :=
      List.pairwise_map.mp hnodup
    exact (hle.and hne).imp fun h => lt_of_le_of_ne h.1 h.2
  have hnd₁ : ((sortScan l₁).map ScanEnt.path).Nodup :=
    (((List.perm_insertionSort scanPathLe l₁).map ScanEnt.path).nodup_iff).mpr
      hnd
  have hnd₂ : ((sortScan l₂).map ScanEnt.path).Nodup :=
    (((List.perm_insertionSort scanPathLe l₂).map ScanEnt.path).nodup_iff).mpr
      (((hp.map ScanEnt.path).nodup_iff).mp hnd)
  exact List.eq_of_perm_of_sorted
    ((List.perm_insertionSort _ _).trans
      (hp.trans (List.perm_insertionSort _ _).symm))
    (hstrict _ (List.sorted_insertionSort _ _) hnd₁)
    (hstrict _ (List.sorted_insertionSort _ _) hnd₂)

theorem classifyScan_hardlinks_none (hash : Bool) (s : List ScanEnt) :
    ∀ (hl : List ((Nat × Nat) × String)) (p : String),
      (∀ g ∈ s, g.path ≠ p) →
      (classifyScan hash hl s).hardlinks.lookup p = none := by
  induction s with
  | nil =>
    intro hl p _
    rfl
  | cons f t ih =>
    intro hl p hnp
    have hfp : (p == f.path) = false := by
      have := hnp f (List.mem_cons_self _ _)
      simp [beq_eq_false_iff_ne]
      exact fun he => this he.symm
    unfold classifyScan
    by_cases hn : 1 < f.nlink
    · rw [if_pos hn]
      cases hlk : hl.lookup (f.dev, f.ino) with
      | some targ =>
        dsimp only
        rw [List.lookup, hfp]
        exact ih hl p fun g hg => hnp g (List.mem_cons_of_mem _ hg)
      | none =>
        dsimp only
        rw [addScanEnt_hardlinks]
        exact ih _ p fun g hg => hnp g (List.mem_cons_of_mem _ hg)
    · rw [if_neg hn, addScanEnt_hardlinks]
      exact ih hl p fun g hg => hnp g (List.mem_cons_of_mem _ hg)

theorem classifyScan_hardlink_lookup (hash : Bool) (s : List ScanEnt)
    (hnd : (s.map ScanEnt.path).Nodup) :
    ∀ (hl : List ((Nat × Nat) × String)) (f : ScanEnt), f ∈ s → 1 < f.nlink →
      (classifyScan hash hl s).hardlinks.lookup f.path =
        (match hl.lookup (f.dev, f.ino) with
         | some t0 => some ⟨f.path, t0⟩
         | none =>
           match (s.filter fun g =>
               decide (1 < g.nlink) && g.dev == f.dev && g.ino == f.ino).head? with
           | some g0 =>
             if g0.path = f.path then none else some ⟨f.path, g0.path⟩
           | none => none) := by
  induction s with
  | nil =>
    intro hl f hf
    cases hf
  | cons g t ih =>
    intro hl f hf hn1
    have hgnotin : g.path ∉ t.map ScanEnt.path := (List.nodup_cons.mp hnd).1
    have hndt : (t.map ScanEnt.path).Nodup := (List.nodup_cons.mp hnd).2
    unfold classifyScan
    rcases List.mem_cons.mp hf with rfl | hft
    · rw [if_pos hn1]
      have hfc : (f :: t).filter (fun g =>
          decide (1 < g.nlink) && g.dev == f.dev && g.ino == f.ino) =
          f :: t.filter (fun g =>
            decide (1 < g.nlink) && g.dev == f.dev && g.ino == f.ino) := by
        rw [List.filter_cons]
        simp [hn1]
      rw [hfc]
      cases hlk : hl.lookup (f.dev, f.ino) with
      | some targ =>
        dsimp only
        rw [List.lookup]
        simp
      | none =>
        dsimp only
        rw [addScanEnt_hardlinks]
        rw [classifyScan_hardlinks_none hash t _ f.path
          (fun g2 hg2 he => hgnotin (he ▸ List.mem_map_of_mem ScanEnt.path hg2))]
        simp
    · have hfpne : f.path ≠ g.path := fun he =>
        hgnotin (he ▸ List.mem_map_of_mem ScanEnt.path hft)
      have hfbeq : (f.path == g.path) = false := by
        simpa [beq_eq_false_iff_ne] using hfpne
      by_cases hgn : 1 < g.nlink
      · rw [if_pos hgn]
        cases hlk : hl.lookup (g.dev, g.ino) with
        | some targ =>
          dsimp only
          rw [List.lookup, hfbeq]
          rw [ih hndt hl f hft hn1]
          cases hlk2 : hl.lookup (f.dev, f.ino) with
          | some t0 => rfl
          | none =>
            have hpredg : (decide (1 < g.nlink) && g.dev == f.dev &&
                g.ino == f.ino) = false := by
              by_contra hcon
              rw [Bool.not_eq_false, Bool.and_eq_true, Bool.and_eq_true] at hcon
              obtain ⟨⟨_, hdev⟩, hino⟩ := hcon
              rw [beq_iff_eq] at hdev hino
              rw [hdev, hino] at hlk
              rw [hlk] at hlk2
              cases hlk2
            have hfc : (g :: t).filter (fun g2 =>
                decide (1 < g2.nlink) && g2.dev == f.dev && g2.ino == f.ino) =
                t.filter (fun g2 =>
                  decide (1 < g2.nlink) && g2.dev == f.dev && g2.ino == f.ino) := by
              rw [List.filter_cons]
              simp [hpredg]
            rw [hfc]
        | none =>
          dsimp only
          rw [addScanEnt_hardlinks]
          rw [ih hndt (((g.dev, g.ino), g.path) :: hl) f hft hn1]
          by_cases hdin : (f.dev, f.ino) = (g.dev, g.ino)
          · have hl2 : (((g.dev, g.ino), g.path) :: hl).lookup
                (f.dev, f.ino) = some g.path := by
              rw [List.lookup, hdin]
              simp
            rw [hl2]
            have hlkf : hl.lookup (f.dev, f.ino) = none := by
              rw [hdin]
              exact hlk
            rw [hlkf]
            have h1 : g.dev = f.dev := (congrArg Prod.fst hdin).symm
            have h2 : g.ino = f.ino := (congrArg Prod.snd hdin).symm
            have hfc : (g :: t).filter (fun g2 =>
                decide (1 < g2.nlink) && g2.dev == f.dev && g2.ino == f.ino) =
                g :: t.filter (fun g2 =>
                  decide (1 < g2.nlink) && g2.dev == f.dev && g2.ino == f.ino) := by
              rw [List.filter_cons]
              simp [hgn, h1, h2]
            rw [hfc]
            simp [List.head?, Ne.symm hfpne]
          · have hl2 : (((g.dev, g.ino), g.path) :: hl).lookup
                (f.dev, f.ino) = hl.lookup (f.dev, f.ino) := by
              rw [List.lookup]
              have hb : ((f.dev, f.ino) == (g.dev, g.ino)) = false := by
                simpa [beq_eq_false_iff_ne] using hdin
              rw [hb]
            rw [hl2]
            have hpredg : (decide (1 < g.nlink) && g.dev == f.dev &&
                g.ino == f.ino) = false := by
              by_contra hcon
              rw [Bool.not_eq_false, Bool.and_eq_true, Bool.and_eq_true] at hcon
              obtain ⟨⟨_, hdev⟩, hino⟩ := hcon
              rw [beq_iff_eq] at hdev hino
              exact hdin (by rw [hdev, hino])
            have hfc : (g :: t).filter (fun g2 =>
                decide (1 < g2.nlink) && g2.dev == f.dev && g2.ino == f.ino) =
                t.filter (fun g2 =>
                  decide (1 < g2.nlink) && g2.dev == f.dev && g2.ino == f.ino) := by
              rw [List.filter_cons]
              simp [hpredg]
            rw [hfc]
      · rw [if_neg hgn]
        rw [addScanEnt_hardlinks]
        rw [ih hndt hl f hft hn1]
        have hpredg : (decide (1 < g.nlink) && g.dev == f.dev &&
            g.ino == f.ino) = false := by
          simp [hgn]
        have hfc : (g :: t).filter (fun g2 =>
            decide (1 < g2.nlink) && g2.dev == f.dev && g2.ino == f.ino) =
            t.filter (fun g2 =>
              decide (1 < g2.nlink) && g2.dev == f.dev && g2.ino == f.ino) := by
          rw [List.filter_cons]
          simp [hpredg]
        rw [hfc]

/-- Claim C3: the scanner sorts its aggregated results ascending by
path before hardlink classification; whenever some other entry with the
same (device, inode) pair and link count above one has a smaller path,
the entry becomes a Hardlink whose target is the earliest such path in
ascending path order; and two scans of the same filesystem state (the
same entries in any order) produce identical classifications. -/
theorem c3_scan_determinism (hash : Bool) (l₁ l₂ : List ScanEnt)
    (m₁ m₂ : List String) (hpl : l₁.Perm l₂) (hpm : m₁.Perm m₂)
    (hnd : (l₁.map ScanEnt.path).Nodup) :
    scan_inner hash l₁ m₁ = scan_inner hash l₂ m₂ ∧
    ∀ f ∈ l₁, 1 < f.nlink →
      ∀ g ∈ l₁, 1 < g.nlink → g.dev = f.dev → g.ino = f.ino →
        g.path < f.path →
        ∃ t0, earliestDin l₁ f.dev f.ino = some t0 ∧
          (∀ e ∈ l₁, 1 < e.nlink → e.dev = f.dev → e.ino = f.ino →
            t0 ≤ e.path) ∧
          (scan_inner hash l₁ m₁).hardlinks.lookup f.path =
            some ⟨f.path, t0⟩ := by
  constructor
  · unfold scan_inner
    rw [sortScan_eq_of_perm hpl hnd, sortStrings_eq_of_perm hpm]
  · intro f hf hn g hg hgn hdev hino hlt
    have hnds : ((sortScan l₁).map ScanEnt.path).Nodup :=
      (((List.perm_insertionSort scanPathLe l₁).map ScanEnt.path).nodup_iff).mpr
        hnd
    have hfs : f ∈ sortScan l₁ := (List.mem_insertionSort _).mpr hf
    have hgs : g ∈ sortScan l₁ := (List.mem_insertionSort _).mpr hg
    have hluk := classifyScan_hardlink_lookup hash (sortScan l₁) hnds [] f hfs
      hn
    have hemp : (([] : List ((Nat × Nat) × String)).lookup (f.dev, f.ino)) =
        none := rfl
    rw [hemp] at hluk
    have hgpred : (decide (1 < g.nlink) && g.dev == f.dev &&
        g.ino == f.ino) = true := by
      simp [hgn, hdev, hino]
    have hgfil : g ∈ (sortScan l₁).filter (fun g2 =>
        decide (1 < g2.nlink) && g2.dev == f.dev && g2.ino == f.ino) :=
      List.mem_filter.mpr ⟨hgs, hgpred⟩
    cases hfl : (sortScan l₁).filter (fun g2 =>
        decide (1 < g2.nlink) && g2.dev == f.dev && g2.ino == f.ino) with
    | nil => exact absurd (hfl ▸ hgfil) (List.not_mem_nil g)
    | cons x tl =>
      have hg0 : g ∈ x :: tl := hfl ▸ hgfil
      have hfilsorted : (x :: tl).Pairwise scanPathLe :=
        hfl ▸ ((List.sorted_insertionSort scanPathLe l₁).filter _)
      have hmin : ∀ e ∈ x :: tl, x.path ≤ e.path := by
        intro e he
        rcases List.mem_cons.mp he with rfl | he2
        · exact le_refl _
        · exact (List.pairwise_cons.mp hfilsorted).1 e he2
      have hxlt : x.path < f.path := lt_of_le_of_lt (hmin g hg0) hlt
      have hxne : ¬ (x.path = f.path) := ne_of_lt hxlt
      refine ⟨x.path, ?_, ?_, ?_⟩
      · unfold earliestDin
        rw [hfl]
        rfl
      · intro e he hen hedev heino
        have hepred : (decide (1 < e.nlink) && e.dev == f.dev &&
            e.ino == f.ino) = true := by
          simp [hen, hedev, heino]
        have hme : e ∈ x :: tl := hfl ▸ List.mem_filter.mpr
          ⟨(List.mem_insertionSort _).mpr he, hepred⟩
        exact hmin e hme
      · have hsc : (scan_inner hash l₁ m₁).hardlinks =
            (classifyScan hash [] (sortScan l₁)).hardlinks := rfl
        rw [hsc, hluk, hfl]
        simp [List.head?, hxne]

/-- Witness for C3 at two concrete two-entry scans of the same state in
opposite orders: both classifications agree, and `/b` becomes a
hardlink to the earlier path `/a`. -/
theorem c3_scan_determinism_witness :
    scan_inner true [c3e2, c3e1] ["/m"] = scan_inner true [c3e1, c3e2] ["/m"] ∧
      (scan_inner true [c3e2, c3e1] ["/m"]).hardlinks.lookup "/b" =
        some ⟨"/b", "/a"⟩ := by
  have h := c3_scan_determinism true [c3e2, c3e1] [c3e1, c3e2] ["/m"] ["/m"]
    (List.Perm.swap c3e1 c3e2 []) (List.Perm.refl _) (by decide)
  refine ⟨h.1, ?_⟩
  obtain ⟨t0, ht0, _, hlook⟩ := h.2 c3e2 (by decide) (by decide) c3e1
    (by decide) (by decide) (by decide) (by decide)
    (String.lt_iff_toList_lt.mpr (by decide))
  have hed : earliestDin [c3e2, c3e1] c3e2.dev c3e2.ino = some "/a" := by
    decide
  rw [hed] at ht0
  injection ht0 with ht0
  subst ht0
  exact hlook
